import Mathlib

/-!
Shallow embedding of the intent-recognition core of the Ghost voice
assistant (src/Ghost/Backend/IntentRecognizer.py).  Text is modelled as
`List Char` restricted to the ASCII fragment actually exercised by the
code: Python's `str.lower` is modelled by `lowerChar`, the regex classes
`\w` and `\s` by `isWordChar` and `isSpaceChar`.  Confidences are modelled
as rationals (the code only compares, takes `max`, and stores them, so the
ordered-field fragment is exact).  The SQLite tables `training_data` and
`queries` are modelled as in-memory lists of rows; the sklearn classifier
is modelled as an abstract function that either returns a label with a
confidence or raises (`Except Unit`).
-/

/-- Model of Python `str.lower` on the ASCII fragment. -/
def lowerChar (c : Char) : Char :=
  if 65 ≤ c.toNat ∧ c.toNat ≤ 90 then Char.ofNat (c.toNat + 32) else c

/-- Model of the regex class `\w` (ASCII fragment): letters, digits, underscore. -/
def isWordChar (c : Char) : Bool :=
  c.isAlphanum || c = '_'

/-- Model of the regex class `\s` (ASCII fragment): the six ASCII whitespace chars. -/
def isSpaceChar (c : Char) : Bool :=
  c = ' ' || c = '\t' || c = '\n' || c = '\r' || c = '\x0b' || c = '\x0c'

/-- Drop trailing whitespace (the right half of Python `str.strip`). -/
def dropTrailWs (l : List Char) : List Char :=
  (l.reverse.dropWhile isSpaceChar).reverse

/-- Model of Python `str.strip`. -/
def stripWs (l : List Char) : List Char :=
  dropTrailWs (l.dropWhile isSpaceChar)

/-- Model of `re.sub(r'\s+', ' ', text)`: every maximal whitespace run
becomes a single space (a whitespace char is dropped when another
whitespace char follows, and becomes `' '` otherwise). -/
def collapseWs : List Char → List Char
  | [] => []
  | [c] => if isSpaceChar c then [' '] else [c]
  | c :: d :: cs =>
    if isSpaceChar c then
      if isSpaceChar d then collapseWs (d :: cs)
      else ' ' :: collapseWs (d :: cs)
    else c :: collapseWs (d :: cs)

/-- Accumulator worker for `splitWs`. -/
def splitWsAux : List Char → List Char → List (List Char)
  | [], acc => if acc.isEmpty then [] else [acc.reverse]
  | c :: cs, acc =>
    if isSpaceChar c then
      if acc.isEmpty then splitWsAux cs [] else acc.reverse :: splitWsAux cs []
    else splitWsAux cs (c :: acc)

/-- Model of no-argument Python `str.split`: split on whitespace runs,
discarding empty fields. -/
def splitWs (l : List Char) : List (List Char) := splitWsAux l []

/-- Model of `' '.join`. -/
def joinSpace : List (List Char) → List Char
  | [] => []
  | w :: ws =>
    match ws with
    | [] => w
    | _ => w ++ ' ' :: joinSpace ws

/-- The substitution performed by `re.sub(r'[^\w\s]', ' ', text)` on one char. -/
def punctToSpace (c : Char) : Char :=
  if isWordChar c = false ∧ isSpaceChar c = false then ' ' else c

/-- Embedding of `IntentRecognizer._preprocess_text`: lower-case, strip,
replace punctuation by spaces, collapse whitespace, keep tokens of length
more than 2, rejoin with single spaces. -/
def preprocess_text (text : List Char) : List Char :=
  let t1 := text.map lowerChar
  let t2 := stripWs t1
  let t3 := t2.map punctToSpace
  let t4 := collapseWs t3
  let words := (splitWs t4).filter (fun w => 2 < w.length)
  joinSpace words

/-- Model of Python's substring operator `needle in hay`. -/
def isSubstring (needle : List Char) : List Char → Bool
  | [] => needle.isEmpty
  | d :: rest => needle.isPrefixOf (d :: rest) || isSubstring needle rest

/-!
Model of the location regex
`\b(?:in|at|for|near|around)\s+([\w\s]+?)(?:\s+(?:please|thanks|thank you|now))?$`
used by `_extract_location`, with Python `re.search` semantics: leftmost
start position wins, alternatives are tried in written order, `\s+` is
greedy, the group is lazy, the optional trailer is preferred present.
-/

def prepositions : List (List Char) :=
  ["in".data, "at".data, "for".data, "near".data, "around".data]

def prepTrailerWords : List (List Char) :=
  ["please".data, "thanks".data, "thank you".data, "now".data]

/-- Does `t` match `\s+(?:please|thanks|thank you|now)` exactly (anchored both
sides)?  The `\s+` must be the maximal whitespace run since none of the
alternatives starts with whitespace. -/
def matchTrailer (t : List Char) : Bool :=
  let s := t.takeWhile isSpaceChar
  !s.isEmpty && prepTrailerWords.any (fun k => t.drop s.length = k)

/-- Lazy capture of `([\w\s]+?)` followed by the optional trailer and `$`:
grow the group one char at a time (each char must be in `[\w\s]`) and stop
at the first point where the rest matches the trailer or is empty. -/
def lazyCaptureAux (acc : List Char) : List Char → Option (List Char)
  | [] => none
  | c :: rest =>
    if isWordChar c || isSpaceChar c then
      if matchTrailer rest || rest.isEmpty then some (acc.reverse ++ [c])
      else lazyCaptureAux (c :: acc) rest
    else none

/-- Match `\s+([\w\s]+?)(?:\s+(?:please|thanks|thank you|now))?$` against the
remainder after a preposition; returns the captured group.  When the
remainder is all whitespace of length at least 2 the backtracked match
captures exactly the final whitespace char. -/
def prepRemainderCapture (r : List Char) : Option (List Char) :=
  let m := (r.takeWhile isSpaceChar).length
  if m = 0 then none
  else
    let b := r.drop m
    if b.isEmpty then
      if 2 ≤ m then some (r.drop (m - 1)) else none
    else lazyCaptureAux [] b

/-- Scan of `re.search` for the preposition pattern: at each start position
with a word boundary before it, try the alternatives in order. -/
def prepSearchAux : Option Char → List Char → Option (List Char)
  | _, [] => none
  | prev, c :: cs =>
    let boundaryOk := match prev with
      | none => true
      | some p => !isWordChar p
    let here : Option (List Char) :=
      if boundaryOk then
        prepositions.findSome? fun p =>
          if (c :: cs).take p.length = p then prepRemainderCapture ((c :: cs).drop p.length)
          else none
      else none
    match here with
    | some g => some g
    | none => prepSearchAux (some c) cs

/-!
Model of `re.findall(r'\b[A-Z][a-zA-Z]*(?:\s[A-Z][a-zA-Z]*)*\b', text)`:
maximal runs of capitalized words separated by single whitespace chars,
with word boundaries at both ends.  Shrinking a word during backtracking
can never restore the final `\b` (a proper prefix of a maximal letter run
ends before a letter), so the only backtracking step is dropping the last
`(\s[A-Z][a-zA-Z]*)` group, after which the final word is followed by the
dropped group's whitespace char and the boundary holds.
-/

def isUpperAZ (c : Char) : Bool := 'A' ≤ c && c ≤ 'Z'

/-- Greedy chain of `(\s[A-Z][a-zA-Z]*)` groups; returns the groups (each
including its leading whitespace char) and the remainder.  Fuel-driven so
that the definition is structural and evaluates in the kernel. -/
def capChain : Nat → List Char → List (List Char) × List Char
  | 0, l => ([], l)
  | fuel + 1, l =>
    match l with
    | s :: c :: rest =>
      if isSpaceChar s && isUpperAZ c then
        let w := c :: rest.takeWhile Char.isAlpha
        let r := rest.dropWhile Char.isAlpha
        let next := capChain fuel r
        ((s :: w) :: next.1, next.2)
      else ([], l)
    | _ => ([], l)

/-- One findall match starting at an uppercase char `c` (boundary before it
already checked); returns the matched run and the remainder after it, or
none when even the single first word is followed by a word char. -/
def capMatchAt (c : Char) (cs : List Char) : Option (List Char × List Char) :=
  let w0 := c :: cs.takeWhile Char.isAlpha
  let r0 := cs.dropWhile Char.isAlpha
  let chain := capChain r0.length r0
  let boundaryAfter : Bool :=
    match chain.2 with
    | [] => true
    | d :: _ => !isWordChar d
  if boundaryAfter then some (w0 ++ chain.1.flatten, chain.2)
  else
    match chain.1.getLast? with
    | some lastGroup => some (w0 ++ chain.1.dropLast.flatten, lastGroup ++ chain.2)
    | none => none

/-- The findall scan: left to right, non-overlapping. -/
def capRunsAux : Nat → Option Char → List Char → List (List Char)
  | 0, _, _ => []
  | fuel + 1, prev, l =>
    match l with
    | [] => []
    | c :: cs =>
      let boundaryOk := match prev with
        | none => true
        | some p => !isWordChar p
      if boundaryOk && isUpperAZ c then
        match capMatchAt c cs with
        | some (m, rem) => m :: capRunsAux fuel (some (m.getLastD c)) rem
        | none => capRunsAux fuel (some c) cs
      else capRunsAux fuel (some c) cs

def capRuns (text : List Char) : List (List Char) :=
  capRunsAux text.length none text

/-- Single-word results of the preposition pattern that are rejected. -/
def prepStopWords : List (List Char) :=
  ["the".data, "a".data, "an".data, "this".data, "that".data, "it".data,
   "today".data, "tomorrow".data]

/-- Capitalized-word runs filtered out by `_extract_location`. -/
def capStopWords : List (List Char) :=
  ["today".data, "tomorrow".data, "weather".data, "forecast".data,
   "temperature".data, "india".data]

/-- Embedding of `IntentRecognizer._extract_location`. -/
def extract_location (text : List Char) : Option (List Char) :=
  let text_lower := text.map lowerChar
  match prepSearchAux none text_lower with
  | some g =>
    let location := stripWs g
    if (splitWs location).length = 1 ∧ location.map lowerChar ∈ prepStopWords then none
    else some location
  | none =>
    let caps := capRuns text
    if caps.isEmpty then none
    else
      let filtered := caps.filter (fun w => w.map lowerChar ∉ capStopWords)
      if filtered.isEmpty then none else some (joinSpace filtered)

/-!
Model of the `get_info` entity regex
`(?:who is|what is|where is|how does|find|show me|tell me about)\s+(.+)`
with `re.IGNORECASE`: leftmost start, alternatives in written order, `\s+`
greedy with backtracking, `(.+)` greedy over non-newline chars.
-/

def infoStarters : List (List Char) :=
  ["who is".data, "what is".data, "where is".data, "how does".data,
   "find".data, "show me".data, "tell me about".data]

/-- Backtracking on the length of `\s+` (from `k` down to 1): the first
length whose following char exists and is not a newline lets `(.+)` match
the maximal non-newline run from there. -/
def dotCaptureAux : Nat → List Char → Option (List Char)
  | 0, _ => none
  | k + 1, r =>
    match r.drop (k + 1) with
    | [] => dotCaptureAux k r
    | c :: rest => if c = '\n' then dotCaptureAux k r else some ((c :: rest).takeWhile (· ≠ '\n'))

/-- Match `\s+(.+)` against the remainder after a starter phrase. -/
def dotPlusCapture (r : List Char) : Option (List Char) :=
  let m := (r.takeWhile isSpaceChar).length
  if m = 0 then none else dotCaptureAux m r

/-- The `re.search` scan for the get_info starter pattern (no boundary in the
pattern, case-insensitive comparison). -/
def infoSearchAux : List Char → Option (List Char)
  | [] => none
  | c :: cs =>
    match infoStarters.findSome? (fun p =>
        if ((c :: cs).take p.length).map lowerChar = p then dotPlusCapture ((c :: cs).drop p.length)
        else none) with
    | some g => some g
    | none => infoSearchAux cs

/-- Remove one trailing question mark: `re.sub(r'\?$', '', entity)`. -/
def dropTrailingQM (l : List Char) : List Char :=
  if l.getLast? = some '?' then l.dropLast else l

/-- Post-processing of a raw get_info capture, as in `_resolve_intent`. -/
def infoEntity (text : List Char) : Option (List Char) :=
  match infoSearchAux text with
  | none => none
  | some g =>
    let e1 := stripWs g
    let e2 := dropTrailingQM e1
    let lowered := e2.map lowerChar
    let e3 :=
      if lowered.take 4 = "the ".data ∨ lowered.take 2 = "a ".data ∨ lowered.take 3 = "an ".data
      then joinSpace ((splitWs e2).drop 1)
      else e2
    if e3.map lowerChar = "your name".data ∨ e3.map lowerChar = "who created you".data ∨
        e3.map lowerChar = "who made you".data
    then none
    else some e3

/-- Embedding of `IntentRecognizer._resolve_intent`: per-intent entity
extraction and display type; the intent itself is returned unchanged. -/
def resolve_intent (intent text : List Char) : List Char × Option (List Char) × List Char :=
  let text_lower := text.map lowerChar
  if intent = "get_time".data then
    (intent, none, "time_query".data)
  else if intent = "get_weather".data then
    (intent, extract_location text, "weather_query".data)
  else if intent = "system_info".data then
    (intent,
      (if isSubstring "what is your name".data text_lower then some "your name".data
       else if isSubstring "who created you".data text_lower ||
           isSubstring "who made you".data text_lower then some "creator".data
       else if isSubstring "what can you do".data text_lower ||
           isSubstring "your purpose".data text_lower then some "capabilities".data
       else none),
      "system_query".data)
  else if intent = "greeting".data then
    (intent, none, "greeting".data)
  else if intent = "exit".data then
    (intent, some "terminate".data, "exit_command".data)
  else if intent = "get_info".data then
    (intent, infoEntity text, "information_query".data)
  else
    (intent, none, "unknown".data)

/-!
The recognizer state: the two SQLite tables as lists of rows (list order is
insertion order, i.e. ascending id), the sklearn model as an abstract
classifier function, and the `is_trained` flag.  A classifier maps the
cleaned text to a label and the max of its predicted probabilities, or
raises (`Except.error`), covering any exception thrown by
`model.predict`/`model.predict_proba`.
-/

abbrev Clf := List Char → Except Unit (List Char × ℚ)

structure TrainingRow where
  text : List Char
  intent : List Char
  source : List Char
deriving DecidableEq

structure QueryRow where
  text : List Char
  predicted_intent : Option (List Char)
  correct_intent : Option (List Char)
  confidence : Option ℚ
deriving DecidableEq

structure RecState where
  training_data : List TrainingRow
  queries : List QueryRow
  model : Option Clf
  is_trained : Bool

def confidence_threshold : ℚ := mkRat 6 10

def min_samples_per_class : Nat := 3

/-- The `common_patterns` table from `IntentRecognizer.__init__`, in dict
insertion order.  Note the `exit` triggers `"I am done"`: stored with an
uppercase letter, while the matcher lower-cases only the input. -/
def common_patterns : List (List Char × List (List Char)) :=
  [("greeting".data, ["hello".data, "hi".data, "hey".data]),
   ("get_time".data, ["time".data, "clock".data, "what time".data]),
   ("get_weather".data, ["weather".data, "forecast".data, "temperature".data]),
   ("system_info".data,
     ["who made".data, "created".data, "what are you".data, "your name".data]),
   ("exit".data,
     ["exit".data, "quit".data, "stop".data, "goodbye".data, "go to sleep".data,
      "shut down".data, "I am done".data, "you can stop now".data]),
   ("get_info".data,
     ["who is".data, "where is".data, "what is".data, "how".data, "find".data,
      "show me".data])]

/-- Embedding of `IntentRecognizer._fallback_intent`. -/
def fallback_intent (text : List Char) (confidence : ℚ) :
    List Char × Option (List Char) × List Char × ℚ :=
  match common_patterns.find? (fun p => p.2.any (fun t => isSubstring t (text.map lowerChar))) with
  | some p =>
    let r := resolve_intent p.1 text
    (r.1, r.2.1, r.2.2, max confidence (mkRat 8 10))
  | none => ("unknown".data, none, "unknown".data, confidence)

/-- Embedding of `IntentRecognizer._log_query`: append one row to `queries`. -/
def log_query (st : RecState) (text : List Char) (pi : Option (List Char))
    (conf : Option ℚ) : RecState :=
  { st with queries := st.queries ++ [⟨text, pi, none, conf⟩] }

/-- Embedding of `IntentRecognizer.predict_intent`.  Returns the 4-tuple
together with the post-state.  The source's local `clean_text` binding is
inlined (`preprocess_text` is pure).  The `except` handler of the source
catches a classifier exception, logs an `error` row, and returns the
zero-confidence fallback tuple. -/
def predict_intent (st : RecState) (text : List Char) :
    (List Char × Option (List Char) × List Char × ℚ) × RecState :=
  if stripWs text = [] then
    (("unknown".data, none, "unknown".data, 0),
      log_query st text (some "unknown".data) (some 0))
  else if preprocess_text text = [] then
    (("unknown".data, none, "unknown".data, 0),
      log_query st text (some "unknown".data) (some 0))
  else
    match st.model with
    | none =>
      let r := fallback_intent text 0
      (r, log_query st text (some r.1) (some r.2.2.2))
    | some f =>
      if st.is_trained = false then
        let r := fallback_intent text 0
        (r, log_query st text (some r.1) (some r.2.2.2))
      else
        match f (preprocess_text text) with
        | Except.error _ =>
          (fallback_intent text 0, log_query st text (some "error".data) (some 0))
        | Except.ok (label, confidence) =>
          if confidence < confidence_threshold then
            let r := fallback_intent text confidence
            (r, log_query st text (some r.1) (some r.2.2.2))
          else
            let rt := resolve_intent label text
            ((rt.1, rt.2.1, rt.2.2, confidence),
              log_query st text (some rt.1) (some confidence))

/-- Embedding of `IntentRecognizer._train_model`, with the actual fitting
abstracted into `fit`.  Both failure guards set `is_trained := false` and
leave the model field untouched. -/
def train_model (fit : List TrainingRow → Clf) (st : RecState) : Bool × RecState :=
  let texts : List (List Char) := st.training_data.map (·.text)
  let labels : List (List Char) := st.training_data.map (·.intent)
  if texts = [] ∨ labels.dedup.length < 2 then
    (false, { st with is_trained := false })
  else if labels.dedup.any (fun l => labels.count l < min_samples_per_class) then
    (false, { st with is_trained := false })
  else
    (true, { st with model := some (fit st.training_data), is_trained := true })

/-- Embedding of `_train_and_save_model`: saving affects only the on-disk
artifact, so the in-memory state is that of `train_model`. -/
def train_and_save_model (fit : List TrainingRow → Clf) (st : RecState) : RecState :=
  (train_model fit st).2

/-- Embedding of `_add_single_training_example_to_db`. -/
def add_single_training_example (text intent source : List Char) (st : RecState) :
    Bool × RecState :=
  let clean_text := preprocess_text text
  if clean_text = [] ∨ stripWs intent = [] then (false, st)
  else
    (true, { st with training_data :=
      st.training_data ++ [⟨clean_text, intent.map lowerChar, source⟩] })

/-- Embedding of `add_training_example` (source `'user_feedback'`, as called
from `provide_feedback`): insert, then retrain when at least two distinct
intents exist and every intent has at least `min_samples_per_class` rows. -/
def add_training_example (fit : List TrainingRow → Clf) (text intent : List Char)
    (st : RecState) : Bool × RecState :=
  match add_single_training_example text intent "user_feedback".data st with
  | (false, st1) => (false, st1)
  | (true, st1) =>
    let labels := st1.training_data.map (·.intent)
    if 2 ≤ labels.dedup.length ∧
        labels.dedup.all (fun l => min_samples_per_class ≤ labels.count l) then
      (true, train_and_save_model fit st1)
    else (true, st1)

/-- Set `correct_intent` on the most recent (= last) queries row whose text
matches, as the UPDATE with the `ORDER BY timestamp DESC LIMIT 1` subquery
does. -/
def update_last_matching : List QueryRow → List Char → List Char → List QueryRow
  | [], _, _ => []
  | q :: qs, x, ci =>
    if qs.any (fun r => r.text = x) then q :: update_last_matching qs x ci
    else if q.text = x then { q with correct_intent := some ci } :: qs
    else q :: qs

/-- The WHERE clause of the `already_trained` lookup in `provide_feedback`:
a `training_data` row whose text is the normalized input and whose intent is
the lower-cased label. -/
def pairPred (text correct_intent : List Char) (r : TrainingRow) : Bool :=
  decide (r.text = preprocess_text text ∧ r.intent = correct_intent.map lowerChar)

/-- Embedding of `IntentRecognizer.provide_feedback`. -/
def provide_feedback (fit : List TrainingRow → Clf) (text correct_intent : List Char)
    (st : RecState) : Bool × RecState :=
  if stripWs text = [] ∨ stripWs correct_intent = [] then (false, st)
  else
    let st1 := { st with
      queries := update_last_matching st.queries text (correct_intent.map lowerChar) }
    if 0 < st1.training_data.countP (pairPred text correct_intent) then
      (true, st1)
    else add_training_example fit text correct_intent st1

/-!
Auxiliary concrete objects used by witnesses and counterexamples.
-/

/-- A classifier that never raises and always answers `unknown` at zero
confidence. -/
def dummyClf : Clf := fun _ => Except.ok ("unknown".data, 0)

/-- A fit oracle producing `dummyClf`. -/
def dummyFit : List TrainingRow → Clf := fun _ => dummyClf

/-- A classifier whose prediction raises on every input. -/
def throwingClf : Clf := fun _ => Except.error ()

/-- Fresh recognizer state: empty store, no model, untrained. -/
def emptyState : RecState :=
  { training_data := [], queries := [], model := some dummyClf, is_trained := false }

/-- A trained state whose classifier raises on every input. -/
def stThrow : RecState :=
  { training_data := [], queries := [], model := some throwingClf, is_trained := true }

/-- A state holding a single-label training set (so training must fail with
`InsufficientData`) while a previously trained model is active. -/
def stOneClass : RecState :=
  { training_data := [⟨"hello".data, "greeting".data, "initial".data⟩],
    queries := [], model := some dummyClf, is_trained := true }

/-- Evaluation checks of the embedded text pipeline against the behaviour of
the Python source on concrete inputs. -/
theorem embedding_sanity_checks :
    preprocess_text "What Time is it, now??".data = "what time now".data ∧
    preprocess_text "  !! ??  ".data = [] ∧
    preprocess_text "hello".data = "hello".data ∧
    extract_location "weather in London please".data = some "london".data ∧
    extract_location "weather for paudi garhwal".data = some "paudi garhwal".data ∧
    extract_location "is it sunny in New York".data = some "new york".data ∧
    extract_location "how is the weather today".data = none ∧
    resolve_intent "get_info".data "who is Albert Einstein".data =
      ("get_info".data, some "Albert Einstein".data, "information_query".data) ∧
    resolve_intent "get_info".data "what is the capital of France?".data =
      ("get_info".data, some "capital of France".data, "information_query".data) ∧
    resolve_intent "system_info".data "what is your name".data =
      ("system_info".data, some "your name".data, "system_query".data) ∧
    fallback_intent "hello".data 0 =
      ("greeting".data, none, "greeting".data, mkRat 8 10) ∧
    fallback_intent "I am done".data 0 =
      ("unknown".data, none, "unknown".data, 0) := by
  refine ⟨?_, ?_, ?_, ?_, ?_, ?_, ?_, ?_, ?_, ?_, ?_, ?_⟩ <;> decide

/-- C9: the entity resolver never changes the label: the first component of
`_resolve_intent(L, text)` is exactly `L`, for every intent string and every
text; only the entity and the display type are filled in. -/
theorem resolve_intent_preserves_label (intent text : List Char) :
    (resolve_intent intent text).1 = intent := by
  unfold resolve_intent
  split_ifs <;> rfl

/-- C4: whenever some trigger substring of some intent occurs in the
lower-cased raw text, the confidence returned by the fallback matcher equals
`max incoming 0.8`, hence is at least `0.8`, whatever the incoming
confidence was (0 for an absent/untrained classifier or an exception, the
classifier confidence when under threshold). -/
theorem fallback_match_boosts_confidence (text : List Char) (confidence : ℚ)
    (h : ∃ p ∈ common_patterns, ∃ t ∈ p.2, isSubstring t (text.map lowerChar) = true) :
    (fallback_intent text confidence).2.2.2 = max confidence (mkRat 8 10) ∧
      mkRat 8 10 ≤ (fallback_intent text confidence).2.2.2 := by
  have hfind : (common_patterns.find? fun p =>
      p.2.any fun t => isSubstring t (text.map lowerChar)).isSome := by
    rw [List.find?_isSome]
    obtain ⟨p, hp, t, ht, hsub⟩ := h
    exact ⟨p, hp, List.any_eq_true.mpr ⟨t, ht, hsub⟩⟩
  obtain ⟨p, hp⟩ := Option.isSome_iff_exists.mp hfind
  unfold fallback_intent
  rw [hp]
  exact ⟨rfl, le_max_right _ _⟩

theorem fallback_match_boosts_confidence_witness :
    (∃ p ∈ common_patterns, ∃ t ∈ p.2, isSubstring t ("hello".data.map lowerChar) = true) ∧
    ((fallback_intent "hello".data 0).2.2.2 = max 0 (mkRat 8 10) ∧
      mkRat 8 10 ≤ (fallback_intent "hello".data 0).2.2.2) :=
  ⟨by decide, fallback_match_boosts_confidence "hello".data 0 (by decide)⟩

/-- C3: an input that is empty, whitespace-only, or normalizes to the empty
string makes `predict_intent` return `(unknown, none, unknown, 0)` and log a
single `unknown` query at confidence 0; the classifier is not consulted (the
right-hand side does not depend on the model or the flag). -/
theorem predict_intent_empty_input (st : RecState) (text : List Char)
    (h : stripWs text = [] ∨ preprocess_text text = []) :
    predict_intent st text =
      (("unknown".data, none, "unknown".data, 0),
        log_query st text (some "unknown".data) (some 0)) := by
  unfold predict_intent
  rcases h with h | h
  · rw [if_pos h]
  · by_cases h1 : stripWs text = []
    · rw [if_pos h1]
    · rw [if_neg h1]
      simp only [h, if_pos]

theorem predict_intent_empty_input_witness :
    (stripWs "  !?  ".data = [] ∨ preprocess_text "  !?  ".data = []) ∧
    predict_intent emptyState "  !?  ".data =
      (("unknown".data, none, "unknown".data, 0),
        log_query emptyState "  !?  ".data (some "unknown".data) (some 0)) :=
  ⟨by decide, predict_intent_empty_input emptyState "  !?  ".data (by decide)⟩

/-- C1 counterexample: with a trained model present (`is_trained = true`) and
a training set with a single distinct label, `_train_model` fails but sets
`is_trained` to `false` instead of keeping its prior `true` value. -/
theorem train_failure_flag_counterexample :
    stOneClass.is_trained = true ∧
    (train_model dummyFit stOneClass).1 = false ∧
    (train_model dummyFit stOneClass).2.is_trained = false := by
  refine ⟨rfl, ?_, ?_⟩ <;> decide

/-- C1 (amended): when training fails because fewer than 2 distinct labels
exist or some label has fewer than `min_samples_per_class` examples, the
model object is left untouched, but `is_trained` is set to `false`
regardless of its prior value. -/
theorem train_failure_leaves_model (fit : List TrainingRow → Clf) (st : RecState)
    (h : (st.training_data.map (·.text) = [] ∨
            (st.training_data.map (·.intent)).dedup.length < 2) ∨
         (st.training_data.map (·.intent)).dedup.any
            (fun l => (st.training_data.map (·.intent)).count l < min_samples_per_class) = true) :
    train_model fit st = (false, { st with is_trained := false }) := by
  unfold train_model
  by_cases h1 : st.training_data.map (·.text) = [] ∨
      (st.training_data.map (·.intent)).dedup.length < 2
  · rw [if_pos h1]
  · rw [if_neg h1]
    rw [if_pos (h.resolve_left h1)]

/-- Location extraction as the specification words it: the preposition
pattern first (with the single-word stop-list), otherwise the
capitalized-word runs of the raw text excluding a stop-list (a parameter,
since the claim and the code disagree on its contents), otherwise none. -/
def extract_location_per_claim (capStop : List (List Char)) (text : List Char) :
    Option (List Char) :=
  match prepSearchAux none (text.map lowerChar) with
  | some g =>
    let location := stripWs g
    if (splitWs location).length = 1 ∧ location.map lowerChar ∈ prepStopWords then none
    else some location
  | none =>
    let kept := (capRuns text).filter (fun w => w.map lowerChar ∉ capStop)
    if kept.isEmpty then none else some (joinSpace kept)

/-- The capitalized-word stop-list exactly as the claim states it (without
`india`). -/
def claimCapStopWords : List (List Char) :=
  ["today".data, "tomorrow".data, "weather".data, "forecast".data, "temperature".data]

/-- C6 counterexample: on the input `"India"` the code returns no location
(the code's stop-list also contains `india`), while the extraction described
by the claim — whose stop-list is only
{today, tomorrow, weather, forecast, temperature} — would return `India`. -/
theorem extract_location_stoplist_counterexample :
    (resolve_intent "get_weather".data "India".data).2.1 = none ∧
    extract_location_per_claim claimCapStopWords "India".data = some "India".data := by
  constructor <;> decide

/-- C6 (amended): for the get_weather label, location extraction behaves as
the claim describes once `india` is added to the capitalized-word stop-list;
in particular `"weather in London please"` resolves to the entity
`"london"`. -/
theorem extract_location_matches_claim :
    (∀ text : List Char,
      (resolve_intent "get_weather".data text).2.1 =
        extract_location_per_claim capStopWords text) ∧
    (resolve_intent "get_weather".data "weather in London please".data).2.1 =
      some "london".data := by
  constructor
  · intro text
    show extract_location text = extract_location_per_claim capStopWords text
    unfold extract_location extract_location_per_claim
    cases h : prepSearchAux none (text.map lowerChar) with
    | some g => simp only [h]
    | none =>
      simp only [h]
      cases hcap : capRuns text with
      | nil => rfl
      | cons a l => rfl
  · decide

theorem train_failure_leaves_model_witness :
    ((stOneClass.training_data.map (·.text) = [] ∨
        (stOneClass.training_data.map (·.intent)).dedup.length < 2) ∨
      (stOneClass.training_data.map (·.intent)).dedup.any
        (fun l => (stOneClass.training_data.map (·.intent)).count l <
          min_samples_per_class) = true) ∧
    train_model dummyFit stOneClass = (false, { stOneClass with is_trained := false }) :=
  ⟨by decide, train_failure_leaves_model dummyFit stOneClass (by decide)⟩

/-- `lowerChar` never produces an uppercase `I`: shifted outputs land in
`[97, 122]` and unshifted outputs lie outside `[65, 90]`. -/
theorem lowerChar_ne_upper_I (c : Char) : lowerChar c ≠ 'I' := by
  unfold lowerChar
  split_ifs with h
  · obtain ⟨h1, h2⟩ := h
    intro he
    generalize hg : c.toNat = n at h1 h2 he
    interval_cases n <;> exact absurd he (by decide)
  · intro he
    subst he
    exact h (by decide)

/-- Chars of a `isPrefixOf`-verified needle occur in the haystack. -/
theorem mem_of_isPrefixOf_eq_true :
    ∀ (n h : List Char), n.isPrefixOf h = true → ∀ c ∈ n, c ∈ h := by
  intro n
  induction n with
  | nil => intro h _ c hc; exact absurd hc (List.not_mem_nil c)
  | cons a n' ih =>
    intro h hpre c hc
    cases h with
    | nil => exact absurd hpre (by simp [List.isPrefixOf])
    | cons b h' =>
      simp only [List.isPrefixOf, Bool.and_eq_true, beq_iff_eq] at hpre
      rcases List.mem_cons.mp hc with rfl | hc'
      · exact hpre.1 ▸ List.mem_cons_self _ _
      · exact List.mem_cons_of_mem _ (ih h' hpre.2 c hc')

/-- Chars of a matched substring occur in the haystack. -/
theorem mem_of_isSubstring_eq_true :
    ∀ (hay needle : List Char), isSubstring needle hay = true → ∀ c ∈ needle, c ∈ hay := by
  intro hay
  induction hay with
  | nil =>
    intro needle hsub c hc
    cases needle with
    | nil => exact absurd hc (List.not_mem_nil c)
    | cons a n' => exact absurd hsub (by simp [isSubstring, List.isEmpty])
  | cons d rest ih =>
    intro needle hsub c hc
    have hsub' : needle.isPrefixOf (d :: rest) = true ∨ isSubstring needle rest = true := by
      simpa [isSubstring] using hsub
    rcases hsub' with hpre | htail
    · exact mem_of_isPrefixOf_eq_true needle (d :: rest) hpre c hc
    · exact List.mem_cons_of_mem _ (ih needle htail c hc)

/-- C10: the exit trigger `"I am done"` can never fire: the matcher tests
each trigger as a substring of the lower-cased input without lower-casing
the trigger, and no lower-cased text contains the uppercase `I`; with no
trained classifier, `predict_intent "I am done"` yields `unknown` at
confidence 0 rather than `exit`. -/
theorem exit_trigger_never_fires :
    (∀ text : List Char, isSubstring "I am done".data (text.map lowerChar) = false) ∧
    (∀ st : RecState, st.is_trained = false →
      (predict_intent st "I am done".data).1 =
        ("unknown".data, none, "unknown".data, 0)) := by
  constructor
  · intro text
    cases hsub : isSubstring "I am done".data (text.map lowerChar) with
    | false => rfl
    | true =>
      exfalso
      have hI : ('I' : Char) ∈ text.map lowerChar :=
        mem_of_isSubstring_eq_true _ _ hsub 'I' (by decide)
      obtain ⟨c, _, hc⟩ := List.mem_map.mp hI
      exact lowerChar_ne_upper_I c hc
  · intro st h
    rcases st with ⟨td, qs, m, tr⟩
    have h' : tr = false := h
    subst h'
    cases m with
    | none => rfl
    | some f => rfl

theorem exit_trigger_never_fires_witness :
    emptyState.is_trained = false ∧
    (predict_intent emptyState "I am done".data).1 =
      ("unknown".data, none, "unknown".data, 0) :=
  ⟨rfl, exit_trigger_never_fires.2 emptyState rfl⟩

/-- C5: an exception raised by the classifier inside `predict_intent` is
caught and the call degrades to the fallback path at confidence 0; the
caller receives that well-formed 4-tuple and no exception escapes (the
embedding of `predict_intent` is a total function). -/
theorem classification_error_falls_back (st : RecState) (text : List Char) (f : Clf)
    (hm : st.model = some f) (ht : st.is_trained = true)
    (h1 : ¬ stripWs text = []) (h2 : ¬ preprocess_text text = [])
    (he : f (preprocess_text text) = Except.error ()) :
    (predict_intent st text).1 = fallback_intent text 0 := by
  rcases st with ⟨td, qs, m, tr⟩
  have hm' : m = some f := hm
  have ht' : tr = true := ht
  subst hm' ht'
  unfold predict_intent
  rw [if_neg h1, if_neg h2]
  simp only [he]
  rfl

/-- Does this `predict_intent` call hit the exception handler?  True exactly
when the input survives both emptiness guards, a trained model is present,
and the classifier raises on the cleaned text. -/
def classification_raised (st : RecState) (text : List Char) : Bool :=
  if stripWs text = [] then false
  else if preprocess_text text = [] then false
  else
    match st.model with
    | none => false
    | some f =>
      if st.is_trained = false then false
      else
        match f (preprocess_text text) with
        | Except.error _ => true
        | Except.ok _ => false

/-- C2 (amended): every `predict_intent` call appends exactly one row to the
queries table; on every non-exception path that row carries the returned
intent and confidence, while on the exception path it carries
`("error", 0)`, which can differ from the returned fallback tuple. -/
theorem predict_intent_logs_one_row (st : RecState) (text : List Char) :
    (predict_intent st text).2.queries =
      st.queries ++ [⟨text,
        some (if classification_raised st text then "error".data
              else (predict_intent st text).1.1),
        none,
        some (if classification_raised st text then 0
              else (predict_intent st text).1.2.2.2)⟩] := by
  rcases st with ⟨td, qs, m, tr⟩
  by_cases h1 : stripWs text = []
  · simp [predict_intent, classification_raised, log_query, h1]
  · by_cases h2 : preprocess_text text = []
    · simp [predict_intent, classification_raised, log_query, h1, h2]
    · cases m with
      | none => simp [predict_intent, classification_raised, log_query, h1, h2]
      | some f =>
        cases tr with
        | false => simp [predict_intent, classification_raised, log_query, h1, h2]
        | true =>
          cases he : f (preprocess_text text) with
          | error e => simp [predict_intent, classification_raised, log_query, h1, h2, he]
          | ok lc =>
            obtain ⟨label, conf⟩ := lc
            by_cases hth : conf < confidence_threshold
            · simp [predict_intent, classification_raised, log_query, h1, h2, he, hth]
            · simp [predict_intent, classification_raised, log_query, h1, h2, he, hth]

/-- C2 counterexample: when the classifier raises on `"hello"`, the single
logged row records predicted_intent `error` at confidence 0, while the
returned 4-tuple carries the fallback intent `greeting` — so the logged
intent does not equal the returned one. -/
theorem predict_log_row_mismatch_counterexample :
    (predict_intent stThrow "hello".data).2.queries.map (fun q => q.predicted_intent) =
      [some "error".data] ∧
    (predict_intent stThrow "hello".data).1.1 = "greeting".data ∧
    ("greeting".data : List Char) ≠ "error".data :=
  ⟨by decide, by decide, by decide⟩

theorem classification_error_falls_back_witness :
    stThrow.model = some throwingClf ∧ stThrow.is_trained = true ∧
    ¬ stripWs "hello".data = [] ∧ ¬ preprocess_text "hello".data = [] ∧
    throwingClf (preprocess_text "hello".data) = Except.error () ∧
    (predict_intent stThrow "hello".data).1 = fallback_intent "hello".data 0 :=
  ⟨rfl, rfl, by decide, by decide, rfl,
    classification_error_falls_back stThrow "hello".data throwingClf rfl rfl
      (by decide) (by decide) rfl⟩





/-- Training never touches the `training_data` table. -/
theorem train_model_training_data (fit : List TrainingRow → Clf) (s : RecState) :
    (train_model fit s).2.training_data = s.training_data := by
  unfold train_model
  simp only []
  split
  · rfl
  · split
    · rfl
    · rfl

/-- `add_training_example` changes `training_data` exactly as the underlying
single insert does; the optional retraining step leaves it alone. -/
theorem add_training_example_training_data (fit : List TrainingRow → Clf)
    (x i : List Char) (st : RecState) :
    (add_training_example fit x i st).2.training_data =
      (add_single_training_example x i "user_feedback".data st).2.training_data := by
  unfold add_training_example
  rcases hadd : add_single_training_example x i "user_feedback".data st with ⟨b, st1⟩
  cases b
  · rfl
  · simp only []
    split
    · exact train_model_training_data fit st1
    · rfl

/-- Full case analysis of one `provide_feedback` call, as far as the
`training_data` table is concerned. -/
theorem provide_feedback_cases (fit : List TrainingRow → Clf)
    (x L : List Char) (st : RecState) :
    ((stripWs x = [] ∨ stripWs L = []) ∧ (provide_feedback fit x L st).2 = st) ∨
    (¬(stripWs x = [] ∨ stripWs L = []) ∧
      0 < st.training_data.countP (pairPred x L) ∧
      (provide_feedback fit x L st).2.training_data = st.training_data) ∨
    (¬(stripWs x = [] ∨ stripWs L = []) ∧
      st.training_data.countP (pairPred x L) = 0 ∧ preprocess_text x = [] ∧
      (provide_feedback fit x L st).2.training_data = st.training_data) ∨
    (¬(stripWs x = [] ∨ stripWs L = []) ∧
      st.training_data.countP (pairPred x L) = 0 ∧ ¬ preprocess_text x = [] ∧
      (provide_feedback fit x L st).2.training_data =
        st.training_data ++ [⟨preprocess_text x, L.map lowerChar, "user_feedback".data⟩]) := by
  by_cases h0 : stripWs x = [] ∨ stripWs L = []
  · exact Or.inl ⟨h0, by simp [provide_feedback, h0]⟩
  · by_cases hcount : 0 < st.training_data.countP (pairPred x L)
    · refine Or.inr (Or.inl ⟨h0, hcount, ?_⟩)
      simp [provide_feedback, h0, hcount]
    · have hz : st.training_data.countP (pairPred x L) = 0 := Nat.eq_zero_of_not_pos hcount
      have hx : ¬ stripWs x = [] := fun h => h0 (Or.inl h)
      have hL : ¬ stripWs L = [] := fun h => h0 (Or.inr h)
      by_cases hclean : preprocess_text x = []
      · refine Or.inr (Or.inr (Or.inl ⟨h0, hz, hclean, ?_⟩))
        simp [provide_feedback, h0, hcount, hx, hL, add_training_example_training_data,
          add_single_training_example, hclean]
      · refine Or.inr (Or.inr (Or.inr ⟨h0, hz, hclean, ?_⟩))
        simp [provide_feedback, h0, hcount, hx, hL, add_training_example_training_data,
          add_single_training_example, hclean]

/-- The inserted feedback row satisfies the lookup predicate. -/
theorem pairPred_inserted_row (x L : List Char) :
    pairPred x L ⟨preprocess_text x, L.map lowerChar, "user_feedback".data⟩ = true := by
  simp [pairPred]

/-- C8: calling `provide_feedback` twice in succession with the same
arguments inserts at most one new `training_data` row for the pair
`(normalize x, lowercase L)`: the whole table gains at most one matching row
in the first call, and the second call leaves the table unchanged. -/
theorem provide_feedback_idempotent (fit : List TrainingRow → Clf)
    (st : RecState) (x L : List Char) :
    ((provide_feedback fit x L (provide_feedback fit x L st).2).2).training_data =
      ((provide_feedback fit x L st).2).training_data ∧
    ((provide_feedback fit x L st).2).training_data.countP (pairPred x L) ≤
      st.training_data.countP (pairPred x L) + 1 := by
  rcases provide_feedback_cases fit x L st with
    ⟨h0, heq⟩ | ⟨h0, hpos, htd⟩ | ⟨h0, hz, hclean, htd⟩ | ⟨h0, hz, hclean, htd⟩
  · constructor
    · simp [heq]
    · simp only [heq]
      exact Nat.le_succ _
  · constructor
    · rcases provide_feedback_cases fit x L (provide_feedback fit x L st).2 with
        ⟨h0', _⟩ | ⟨_, _, htd2⟩ | ⟨_, hz2, _, _⟩ | ⟨_, hz2, _, _⟩
      · exact absurd h0' h0
      · exact htd2
      · rw [htd] at hz2; omega
      · rw [htd] at hz2; omega
    · rw [htd]; exact Nat.le_succ_of_le (Nat.le_refl _)
  · constructor
    · rcases provide_feedback_cases fit x L (provide_feedback fit x L st).2 with
        ⟨h0', _⟩ | ⟨_, _, htd2⟩ | ⟨_, _, _, htd2⟩ | ⟨_, _, hclean2, _⟩
      · exact absurd h0' h0
      · exact htd2
      · exact htd2
      · exact absurd hclean hclean2
    · rw [htd]; exact Nat.le_succ_of_le (Nat.le_refl _)
  · have hcnt : ((provide_feedback fit x L st).2).training_data.countP (pairPred x L) =
        st.training_data.countP (pairPred x L) + 1 := by
      rw [htd, List.countP_append]
      simp [pairPred_inserted_row x L]
    constructor
    · rcases provide_feedback_cases fit x L (provide_feedback fit x L st).2 with
        ⟨h0', _⟩ | ⟨_, _, htd2⟩ | ⟨_, hz2, _, _⟩ | ⟨_, hz2, _, _⟩
      · exact absurd h0' h0
      · exact htd2
      · rw [hcnt] at hz2; omega
      · rw [hcnt] at hz2; omega
    · rw [hcnt]

/-- On an uppercase letter, `lowerChar` shifts the code point by 32. -/
theorem lowerChar_toNat_of_upper (c : Char) (h : 65 ≤ c.toNat ∧ c.toNat ≤ 90) :
    (lowerChar c).toNat = c.toNat + 32 := by
  unfold lowerChar
  rw [if_pos h]
  obtain ⟨h1, h2⟩ := h
  generalize hg : c.toNat = n at h1 h2 ⊢
  interval_cases n <;> decide

/-- Outside the uppercase range, `lowerChar` is the identity. -/
theorem lowerChar_of_not_upper (c : Char) (h : ¬(65 ≤ c.toNat ∧ c.toNat ≤ 90)) :
    lowerChar c = c := by
  unfold lowerChar
  exact if_neg h

/-- `lowerChar` is idempotent. -/
theorem lowerChar_idem (c : Char) : lowerChar (lowerChar c) = lowerChar c := by
  by_cases h : 65 ≤ c.toNat ∧ c.toNat ≤ 90
  · have ht := lowerChar_toNat_of_upper c h
    exact lowerChar_of_not_upper _ (by rw [ht]; omega)
  · rw [lowerChar_of_not_upper c h]
    exact lowerChar_of_not_upper c h

/-- A map whose function fixes every member is the identity. -/
theorem map_id_of_fix {f : Char → Char} :
    ∀ l : List Char, (∀ c ∈ l, f c = c) → l.map f = l := by
  intro l
  induction l with
  | nil => intro _; rfl
  | cons a t ih =>
    intro h
    simp only [List.map_cons]
    rw [h a (List.mem_cons_self a t), ih (fun c hc => h c (List.mem_cons_of_mem a hc))]

/-- Dropping a whitespace run from a list whose head is not whitespace does
nothing. -/
theorem dropWhile_id_of_head (l : List Char)
    (h : ∀ c, l.head? = some c → isSpaceChar c = false) :
    l.dropWhile isSpaceChar = l := by
  cases l with
  | nil => rfl
  | cons a t => exact List.dropWhile_cons_of_neg (by simp [h a rfl])

/-- `stripWs` does nothing when both ends are not whitespace. -/
theorem stripWs_id (l : List Char)
    (hh : ∀ c, l.head? = some c → isSpaceChar c = false)
    (hl : ∀ c, l.getLast? = some c → isSpaceChar c = false) :
    stripWs l = l := by
  unfold stripWs dropTrailWs
  rw [dropWhile_id_of_head l hh]
  rw [dropWhile_id_of_head l.reverse (fun c hc => hl c (by rwa [List.head?_reverse] at hc))]
  exact List.reverse_reverse l

/-- Every member of `stripWs l` is a member of `l`. -/
theorem stripWs_subset (l : List Char) : stripWs l ⊆ l := by
  intro c hc
  unfold stripWs dropTrailWs at hc
  have h1 : c ∈ (l.dropWhile isSpaceChar).reverse.dropWhile isSpaceChar :=
    List.mem_reverse.mp hc
  have h2 : c ∈ (l.dropWhile isSpaceChar).reverse :=
    (List.dropWhile_sublist isSpaceChar).subset h1
  have h3 : c ∈ l.dropWhile isSpaceChar := List.mem_reverse.mp h2
  exact (List.dropWhile_sublist isSpaceChar).subset h3

/-- Every char of `collapseWs l` is a space or a char of `l`. -/
theorem mem_collapseWs : ∀ (l : List Char) (c : Char), c ∈ collapseWs l → c = ' ' ∨ c ∈ l := by
  intro l
  induction l with
  | nil => intro c hc; exact absurd hc (List.not_mem_nil c)
  | cons a cs ih =>
    intro c hc
    cases cs with
    | nil =>
      by_cases hsp : isSpaceChar a
      · rw [collapseWs, if_pos hsp] at hc
        exact Or.inl (by simpa using hc)
      · rw [collapseWs, if_neg hsp] at hc
        exact Or.inr hc
    | cons d cs' =>
      by_cases hsp : isSpaceChar a
      · by_cases hd : isSpaceChar d
        · rw [collapseWs, if_pos hsp, if_pos hd] at hc
          rcases ih c hc with h | h
          · exact Or.inl h
          · exact Or.inr (List.mem_cons_of_mem _ h)
        · rw [collapseWs, if_pos hsp, if_neg hd] at hc
          rcases List.mem_cons.mp hc with rfl | h
          · exact Or.inl rfl
          · rcases ih c h with h' | h'
            · exact Or.inl h'
            · exact Or.inr (List.mem_cons_of_mem _ h')
      · rw [collapseWs, if_neg hsp] at hc
        rcases List.mem_cons.mp hc with rfl | h
        · exact Or.inr (List.mem_cons_self _ _)
        · rcases ih c h with h' | h'
          · exact Or.inl h'
          · exact Or.inr (List.mem_cons_of_mem _ h')

/-- Chars of tokens produced by `splitWsAux` are non-whitespace chars of the
input (or of the accumulator). -/
theorem splitWsAux_token_chars : ∀ (l acc : List Char),
    (∀ c ∈ acc, isSpaceChar c = false) →
    ∀ w ∈ splitWsAux l acc, ∀ c ∈ w, isSpaceChar c = false ∧ (c ∈ l ∨ c ∈ acc) := by
  intro l
  induction l with
  | nil =>
    intro acc hacc w hw c hc
    by_cases he : acc.isEmpty
    · rw [splitWsAux, if_pos he] at hw
      exact absurd hw (List.not_mem_nil w)
    · rw [splitWsAux, if_neg he] at hw
      have hwa : w = acc.reverse := by simpa using hw
      subst hwa
      have hc' : c ∈ acc := List.mem_reverse.mp hc
      exact ⟨hacc c hc', Or.inr hc'⟩
  | cons a cs ih =>
    intro acc hacc w hw c hc
    by_cases hsp : isSpaceChar a
    · rw [splitWsAux, if_pos hsp] at hw
      by_cases he : acc.isEmpty
      · rw [if_pos he] at hw
        have hnil : ∀ c ∈ ([] : List Char), isSpaceChar c = false := by
          intro c hc; exact absurd hc (List.not_mem_nil c)
        obtain ⟨h1, h2 | h2⟩ := ih [] hnil w hw c hc
        · exact ⟨h1, Or.inl (List.mem_cons_of_mem _ h2)⟩
        · exact absurd h2 (List.not_mem_nil c)
      · rw [if_neg he] at hw
        rcases List.mem_cons.mp hw with rfl | hw'
        · have hc' : c ∈ acc := List.mem_reverse.mp hc
          exact ⟨hacc c hc', Or.inr hc'⟩
        · have hnil : ∀ c ∈ ([] : List Char), isSpaceChar c = false := by
            intro c hc; exact absurd hc (List.not_mem_nil c)
          obtain ⟨h1, h2 | h2⟩ := ih [] hnil w hw' c hc
          · exact ⟨h1, Or.inl (List.mem_cons_of_mem _ h2)⟩
          · exact absurd h2 (List.not_mem_nil c)
    · rw [splitWsAux, if_neg hsp] at hw
      have hsp' : isSpaceChar a = false := by
        cases h : isSpaceChar a
        · rfl
        · exact absurd h hsp
      have hacc' : ∀ x ∈ a :: acc, isSpaceChar x = false := by
        intro x hx
        rcases List.mem_cons.mp hx with rfl | hx'
        · exact hsp'
        · exact hacc x hx'
      obtain ⟨h1, h2 | h2⟩ := ih (a :: acc) hacc' w hw c hc
      · exact ⟨h1, Or.inl (List.mem_cons_of_mem _ h2)⟩
      · rcases List.mem_cons.mp h2 with rfl | h3
        · exact ⟨h1, Or.inl (List.mem_cons_self _ _)⟩
        · exact ⟨h1, Or.inr h3⟩

/-- Consuming a whitespace-free block shifts it (reversed) into the
accumulator. -/
theorem splitWsAux_append_nonspace : ∀ (w l acc : List Char),
    (∀ c ∈ w, isSpaceChar c = false) →
    splitWsAux (w ++ l) acc = splitWsAux l (w.reverse ++ acc) := by
  intro w
  induction w with
  | nil => intro l acc _; simp
  | cons a w' ih =>
    intro l acc hw
    have ha : isSpaceChar a = false := hw a (List.mem_cons_self _ _)
    rw [List.cons_append, splitWsAux, if_neg (by simp [ha])]
    rw [ih l (a :: acc) (fun c hc => hw c (List.mem_cons_of_mem _ hc))]
    congr 1
    simp

/-- Splitting the space-joined list of nonempty, whitespace-free tokens
recovers the tokens. -/
theorem splitWs_joinSpace : ∀ ws : List (List Char),
    (∀ w ∈ ws, w ≠ [] ∧ ∀ c ∈ w, isSpaceChar c = false) →
    splitWs (joinSpace ws) = ws := by
  intro ws
  induction ws with
  | nil => intro _; rfl
  | cons w rest ih =>
    intro h
    obtain ⟨hne, hw⟩ := h w (List.mem_cons_self _ _)
    cases rest with
    | nil =>
      show splitWsAux (joinSpace [w]) [] = [w]
      have hj : joinSpace [w] = w ++ [] := by rw [List.append_nil]; rfl
      rw [hj, splitWsAux_append_nonspace w [] [] hw, splitWsAux, if_neg (by simpa using hne)]
      simp
    | cons v vs =>
      show splitWsAux (w ++ ' ' :: joinSpace (v :: vs)) [] = w :: v :: vs
      rw [splitWsAux_append_nonspace w _ [] hw]
      rw [splitWsAux, if_pos (by decide), if_neg (by simpa using hne)]
      rw [List.append_nil, List.reverse_reverse]
      congr 1
      exact ih (fun u hu => h u (List.mem_cons_of_mem _ hu))

/-- Collapsing whitespace does not change how a list splits. -/
theorem splitWsAux_collapseWs : ∀ (l acc : List Char),
    splitWsAux (collapseWs l) acc = splitWsAux l acc := by
  intro l
  induction l with
  | nil => intro acc; rfl
  | cons a cs ih =>
    intro acc
    cases cs with
    | nil =>
      by_cases hsp : isSpaceChar a
      · rw [show collapseWs [a] = [' '] by rw [collapseWs, if_pos hsp]]
        conv_rhs => rw [splitWsAux, if_pos hsp]
        rfl
      · rw [show collapseWs [a] = [a] by rw [collapseWs, if_neg hsp]]
    | cons d cs' =>
      by_cases hsp : isSpaceChar a
      · by_cases hd : isSpaceChar d
        · rw [show collapseWs (a :: d :: cs') = collapseWs (d :: cs') by
            rw [collapseWs, if_pos hsp, if_pos hd]]
          rw [ih acc]
          rw [show splitWsAux (a :: d :: cs') acc =
              (if acc.isEmpty then splitWsAux (d :: cs') [] else
                acc.reverse :: splitWsAux (d :: cs') []) by rw [splitWsAux, if_pos hsp]]
          rw [show splitWsAux (d :: cs') acc =
              (if acc.isEmpty then splitWsAux cs' [] else
                acc.reverse :: splitWsAux cs' []) by rw [splitWsAux, if_pos hd]]
          rw [show splitWsAux (d :: cs') [] =
              (if ([] : List Char).isEmpty then splitWsAux cs' [] else
                ([] : List Char).reverse :: splitWsAux cs' []) by rw [splitWsAux, if_pos hd]]
          by_cases hacc : acc.isEmpty
          · rw [if_pos hacc, if_pos hacc, if_pos (by decide)]
          · rw [if_neg hacc, if_neg hacc, if_pos (by decide)]
        · rw [show collapseWs (a :: d :: cs') = ' ' :: collapseWs (d :: cs') by
            rw [collapseWs, if_pos hsp, if_neg hd]]
          rw [show splitWsAux (' ' :: collapseWs (d :: cs')) acc =
              (if acc.isEmpty then splitWsAux (collapseWs (d :: cs')) [] else
                acc.reverse :: splitWsAux (collapseWs (d :: cs')) []) by
            rw [splitWsAux, if_pos (by decide)]]
          rw [show splitWsAux (a :: d :: cs') acc =
              (if acc.isEmpty then splitWsAux (d :: cs') [] else
                acc.reverse :: splitWsAux (d :: cs') []) by rw [splitWsAux, if_pos hsp]]
          rw [ih []]
      · rw [show collapseWs (a :: d :: cs') = a :: collapseWs (d :: cs') by
          rw [collapseWs, if_neg hsp]]
        rw [splitWsAux, if_neg hsp, splitWsAux, if_neg hsp]
        exact ih (a :: acc)

/-- Chars of a space-joined token list are spaces or token chars. -/
theorem mem_joinSpace : ∀ (ws : List (List Char)) (c : Char), c ∈ joinSpace ws →
    c = ' ' ∨ ∃ w ∈ ws, c ∈ w := by
  intro ws
  induction ws with
  | nil => intro c hc; exact absurd hc (List.not_mem_nil c)
  | cons w rest ih =>
    intro c hc
    cases rest with
    | nil => exact Or.inr ⟨w, List.mem_cons_self _ _, hc⟩
    | cons v vs =>
      have hc' : c ∈ w ++ ' ' :: joinSpace (v :: vs) := hc
      rcases List.mem_append.mp hc' with h1 | h2
      · exact Or.inr ⟨w, List.mem_cons_self _ _, h1⟩
      · rcases List.mem_cons.mp h2 with rfl | h3
        · exact Or.inl rfl
        · rcases ih c h3 with h4 | ⟨u, hu, hcu⟩
          · exact Or.inl h4
          · exact Or.inr ⟨u, List.mem_cons_of_mem _ hu, hcu⟩

/-- Joining a token list headed by a nonempty token is nonempty. -/
theorem joinSpace_ne_nil (w : List Char) (ws : List (List Char)) (hne : w ≠ []) :
    joinSpace (w :: ws) ≠ [] := by
  cases ws with
  | nil => exact hne
  | cons v vs =>
    show w ++ ' ' :: joinSpace (v :: vs) ≠ []
    simp

/-- The first char of a join of nonempty whitespace-free tokens is not
whitespace. -/
theorem joinSpace_head_not_space (ws : List (List Char))
    (h : ∀ w ∈ ws, w ≠ [] ∧ ∀ c ∈ w, isSpaceChar c = false) :
    ∀ c, (joinSpace ws).head? = some c → isSpaceChar c = false := by
  intro c hc
  cases ws with
  | nil => exact absurd hc (by simp [joinSpace])
  | cons w rest =>
    obtain ⟨hne, hw⟩ := h w (List.mem_cons_self _ _)
    cases w with
    | nil => exact absurd rfl hne
    | cons a w' =>
      cases rest with
      | nil => exact (Option.some.inj hc) ▸ hw a (List.mem_cons_self _ _)
      | cons v vs => exact (Option.some.inj hc) ▸ hw a (List.mem_cons_self _ _)

/-- The last char of a join of nonempty whitespace-free tokens is not
whitespace. -/
theorem joinSpace_getLast_not_space : ∀ ws : List (List Char),
    (∀ w ∈ ws, w ≠ [] ∧ ∀ c ∈ w, isSpaceChar c = false) →
    ∀ c, (joinSpace ws).getLast? = some c → isSpaceChar c = false := by
  intro ws
  induction ws with
  | nil => intro _ c hc; exact absurd hc (by simp [joinSpace])
  | cons w rest ih =>
    intro h c hc
    obtain ⟨hne, hw⟩ := h w (List.mem_cons_self _ _)
    cases rest with
    | nil => exact hw c (List.mem_of_getLast?_eq_some hc)
    | cons v vs =>
      have hvne : joinSpace (v :: vs) ≠ [] :=
        joinSpace_ne_nil v vs (h v (by simp)).1
      obtain ⟨d, hd⟩ := Option.isSome_iff_exists.mp (List.getLast?_isSome.mpr hvne)
      obtain ⟨ys, hys⟩ := List.getLast?_eq_some_iff.mp hd
      have hj : (joinSpace (w :: v :: vs)).getLast? = some d := by
        show (w ++ ' ' :: joinSpace (v :: vs)).getLast? = some d
        rw [hys, show w ++ ' ' :: (ys ++ [d]) = (w ++ ' ' :: ys) ++ [d] by simp]
        exact List.getLast?_concat _
      rw [hj] at hc
      have hdn := ih (fun u hu => h u (List.mem_cons_of_mem _ hu)) d hd
      exact (Option.some.inj hc) ▸ hdn

/-- Every token kept by `_preprocess_text` is nonempty, longer than 2, and
consists of non-whitespace chars that `lowerChar` and `punctToSpace` fix. -/
theorem preprocess_tokens_good (x : List Char) :
    ∀ w ∈ (splitWs (collapseWs ((stripWs (x.map lowerChar)).map punctToSpace))).filter
        (fun w => 2 < w.length),
      w ≠ [] ∧ 2 < w.length ∧ ∀ c ∈ w,
        isSpaceChar c = false ∧ lowerChar c = c ∧ punctToSpace c = c := by
  intro w hw
  obtain ⟨hw1, hw2⟩ := List.mem_filter.mp hw
  have hlen : 2 < w.length := by simpa using hw2
  refine ⟨by intro hn; rw [hn] at hlen; simp at hlen, hlen, ?_⟩
  intro c hc
  have hnil : ∀ c ∈ ([] : List Char), isSpaceChar c = false := by
    intro c hc; exact absurd hc (List.not_mem_nil c)
  obtain ⟨hnsp, hmem | hmem⟩ := splitWsAux_token_chars _ [] hnil w hw1 c hc
  swap
  · exact absurd hmem (List.not_mem_nil c)
  rcases mem_collapseWs _ c hmem with rfl | hmem3
  · exact absurd hnsp (by simp [isSpaceChar])
  obtain ⟨d, hd, hdc⟩ := List.mem_map.mp hmem3
  by_cases hcond : isWordChar d = false ∧ isSpaceChar d = false
  · rw [punctToSpace, if_pos hcond] at hdc
    rw [← hdc] at hnsp
    exact absurd hnsp (by simp [isSpaceChar])
  · rw [punctToSpace, if_neg hcond] at hdc
    subst hdc
    have hd1 : d ∈ x.map lowerChar := stripWs_subset _ hd
    obtain ⟨e, _, he⟩ := List.mem_map.mp hd1
    refine ⟨hnsp, ?_, ?_⟩
    · rw [← he]
      exact lowerChar_idem e
    · rw [punctToSpace, if_neg hcond]

/-- C7: the text normalizer is idempotent:
`preprocess_text (preprocess_text x) = preprocess_text x` for every input.
The output is a join of whitespace-free lower-case word tokens longer than
2 chars separated by single spaces, and every stage of the pipeline fixes
such a string. -/
theorem preprocess_text_idempotent (x : List Char) :
    preprocess_text (preprocess_text x) = preprocess_text x := by
  have hgood := preprocess_tokens_good x
  set WS : List (List Char) :=
    (splitWs (collapseWs ((stripWs (x.map lowerChar)).map punctToSpace))).filter
      (fun w => 2 < w.length) with hWS
  have htok : ∀ w ∈ WS, w ≠ [] ∧ ∀ c ∈ w, isSpaceChar c = false :=
    fun w hw => ⟨(hgood w hw).1, fun c hc => ((hgood w hw).2.2 c hc).1⟩
  have hy : preprocess_text x = joinSpace WS := rfl
  rw [hy]
  have hchar : ∀ c ∈ joinSpace WS, lowerChar c = c ∧ punctToSpace c = c := by
    intro c hc
    rcases mem_joinSpace WS c hc with rfl | ⟨w, hw, hcw⟩
    · exact ⟨by decide, by decide⟩
    · exact ⟨((hgood w hw).2.2 c hcw).2.1, ((hgood w hw).2.2 c hcw).2.2⟩
  show joinSpace ((splitWs (collapseWs
      ((stripWs ((joinSpace WS).map lowerChar)).map punctToSpace))).filter
      (fun w => 2 < w.length)) = joinSpace WS
  rw [map_id_of_fix (joinSpace WS) (fun c hc => (hchar c hc).1)]
  rw [stripWs_id (joinSpace WS) (joinSpace_head_not_space WS htok)
    (joinSpace_getLast_not_space WS htok)]
  rw [map_id_of_fix (joinSpace WS) (fun c hc => (hchar c hc).2)]
  rw [show splitWs (collapseWs (joinSpace WS)) = splitWs (joinSpace WS) from
    splitWsAux_collapseWs (joinSpace WS) []]
  rw [splitWs_joinSpace WS htok]
  rw [List.filter_eq_self.mpr (fun w hw => by
    simpa using (hgood w hw).2.1)]
